import Mathlib

/-!
Verification of the dense-layer compute kernel of easynn-rs
(`src/src/layers/dense.rs`, `src/src/layers/mod.rs`).

Modelling conventions:
* The numeric type `T : NumT` (a floating-point type, generic over the layer)
  is embedded as `ℚ`, the exact-arithmetic model of the scalar type; all
  claims about values are settled in exact arithmetic.
* Rust `Vec<T>`/slices are `List ℚ`; out-of-bounds reads that would panic in
  Rust are modelled with `List.getD _ _ 0` / truncating `take`-`drop` slices;
  the theorems carry the length hypotheses under which the Rust code does not
  panic, so the model and the code agree on every non-panicking execution.
* `num_cpus::get()` (an ambient positive worker count) is threaded through as
  an explicit parameter `threads`, as spec §9 prescribes for testability.
* `crossbeam::scope` fork-join loops write disjoint slices; the model computes
  the chunks in chunk order, which is the unique non-racy result.
-/

namespace EasyNN

/-- Modelled from the spec: the single error kind of the layer module
(`ShapeMismatchError`, re-exported by `src/src/layers/mod.rs` from the tensor
module, which is not under `src/`). -/
structure ShapeMismatchError where
deriving DecidableEq

/-- `pub type Result<T> = std::result::Result<T, ShapeMismatchError>` from
`src/src/layers/mod.rs`. -/
abbrev Result (α : Type) := Except ShapeMismatchError α

/-- Modelled from the spec: a `Shape` is an ordered sequence of dimension
sizes; equality is value equality (the tensor module is not under `src/`). -/
structure Shape where
  dims : List ℕ
deriving DecidableEq

/-- Modelled from the spec: `size()` is the product of the dimensions. -/
def Shape.size (s : Shape) : ℕ := s.dims.prod

/-- Modelled from the spec: a `Tensor` pairs a `Shape` with a flat numeric
buffer `flattened` (the tensor module is not under `src/`); the construction
invariant is `flattened.length = shape.size`. -/
structure Tensor where
  shape : Shape
  flattened : List ℚ
deriving DecidableEq

/-- Modelled from the spec: `Tensor::zeros(shape)` allocates a zero buffer of
length `shape.size()`. -/
def Tensor.zeros (s : Shape) : Tensor := ⟨s, List.replicate s.size 0⟩

/-- Modelled from the spec: the activation abstraction (the activation module
is not under `src/`); spec §2/§6: each variant exposes a pointwise function
`apply` (called `call` in `dense.rs`) and its derivative (`diff`). -/
structure Activation where
  call : ℚ → ℚ
  diff : ℚ → ℚ

/-- Modelled from the spec: identity activation (`Activation::No`). -/
def Activation.no : Activation := ⟨fun x => x, fun _ => 1⟩

/-- Modelled from the spec: ReLU activation (`Activation::Relu`), whose
derivative is 1 on positive inputs and 0 otherwise. -/
def Activation.relu : Activation := ⟨fun x => max x 0, fun x => if 0 < x then 1 else 0⟩

/-- The `Dense<T>` layer struct of `src/src/layers/dense.rs` lines 23-30. -/
structure Dense where
  input_shape : Shape
  output_shape : Shape
  weight : List ℚ
  bias : List ℚ
  activation : Activation

/-- `Dense::new` (`dense.rs` lines 33-43): clones the shapes and allocates
unit-initialized weight (`ilen * olen` ones) and bias (`olen` ones). -/
def Dense.new (i_shape o_shape : Shape) (act : Activation) : Dense :=
  { input_shape := i_shape
    output_shape := o_shape
    weight := List.replicate (i_shape.size * o_shape.size) 1
    bias := List.replicate o_shape.size 1
    activation := act }

/-- Rust `slice.chunks(n)`: contiguous chunks of length `n`, the last chunk
possibly shorter, no chunk for the empty slice. (Rust panics when `n = 0`; we
return `[]` there, and every use carries a positivity hypothesis.) -/
def chunks (n : ℕ) (l : List α) : List (List α) :=
  match l with
  | [] => []
  | x :: xs =>
    if h : n = 0 then []
    else (x :: xs).take n :: chunks n ((x :: xs).drop n)
termination_by l.length
decreasing_by
  simpa using Nat.sub_lt (Nat.succ_pos xs.length) (Nat.pos_of_ne_zero h)

/-- The `slice_iter!(w, len, j)` macro (`dense.rs` lines 48-52): the slice
`w[j*len .. (j+1)*len]` holding row `j` of length `len`. -/
def sliceAt (s : ℕ) (w : List ℚ) (j : ℕ) : List ℚ := (w.drop (j * s)).take s

/-- The dot-product accumulation loop of `forward_propagate` (`dense.rs`
lines 79-81): starting from the bias value, add `w * input[k]` for each `k`
in ascending order. -/
def dotAcc (init : ℚ) (ws xs : List ℚ) : ℚ :=
  (ws.zip xs).foldl (fun o p => o + p.1 * p.2) init

/-- The inner per-row loop shared by the three chunked operations: for each
element of the driver chunk `d` (output slot / delta entry), at global index
`gi` and chunk-local slice index `si`, emit `g gi d (slice si of the chunk
payload W)`. The two counters advance together; the chunked loops start them
at `i * chunk_size` and `0` respectively. -/
def cpf (g : ℕ → ℚ → List ℚ → List ℚ) (s : ℕ) (w : List ℚ) :
    ℕ → ℕ → List ℚ → List ℚ
  | _, _, [] => []
  | gi, si, a :: as => g gi a (sliceAt s w si) ++ cpf g s w (gi + 1) (si + 1) as

/-- The chunk loop of `forward_propagate` (`dense.rs` lines 74-87): each
zipped pair `(o_chk, w_chk)` at chunk index `i` rewrites every slot of
`o_chk` from the matching weight row; the rewritten chunks are concatenated
back in chunk order. -/
def procA (g : ℕ → ℚ → List ℚ → List ℚ) (s n : ℕ) :
    ℕ → List (List ℚ × List ℚ) → List ℚ
  | _, [] => []
  | i, (dChk, wChk) :: rest =>
      cpf g s wChk (i * n) 0 dChk ++ procA g s n (i + 1) rest

/-- The chunk loop of `descend` (`dense.rs` lines 167-176): each zipped pair
`(d_chk, w_chk)` rewrites the first `d_chk.length` rows of `w_chk`; the rest
of `w_chk` is untouched. -/
def procB (g : ℕ → ℚ → List ℚ → List ℚ) (s n : ℕ) :
    ℕ → List (List ℚ × List ℚ) → List ℚ
  | _, [] => []
  | i, (dChk, wChk) :: rest =>
      (cpf g s wChk (i * n) 0 dChk ++ wChk.drop (dChk.length * s)) ++
        procB g s n (i + 1) rest

/-- The chunk loop of `backpropagate_delta`, phase 1 (`dense.rs` lines
118-127): each zipped triple `((w_chk, p_chk), d_chk)` writes the first
`d_chk.length` rows of `p_chk` from the rows of `w_chk`; the rest of `p_chk`
keeps its zeros. -/
def procP (g : ℕ → ℚ → List ℚ → List ℚ) (s n : ℕ) :
    ℕ → List ((List ℚ × List ℚ) × List ℚ) → List ℚ
  | _, [] => []
  | i, ((wChk, pChk), dChk) :: rest =>
      (cpf g s wChk (i * n) 0 dChk ++ pChk.drop (dChk.length * s)) ++
        procP g s n (i + 1) rest

/-- The chunk size `len / threads + 1` used by all three chunked operations
(`dense.rs` lines 69, 112, 162). -/
def multsPerChunk (len threads : ℕ) : ℕ := len / threads + 1

/-- One output slot of `forward_propagate` (`dense.rs` lines 76-85): bias at
the global output index, plus the dot product of the weight row with the
input, activated when the flag is set. -/
def fwdMult (l : Dense) (inp : List ℚ) (act : Bool) (p : ℕ) (_o : ℚ)
    (row : List ℚ) : List ℚ :=
  let o := dotAcc (l.bias.getD p 0) row inp
  [if act then l.activation.call o else o]

/-- One product row of `backpropagate_delta` phase 1 (`dense.rs` lines
120-125): `p[j] = w[j] * delta_j` elementwise. -/
def prodMult (_j : ℕ) (d : ℚ) (row : List ℚ) : List ℚ := row.map (fun w => w * d)

/-- One weight-row update of `descend` (`dense.rs` lines 169-174):
`w -= rate * delta_j * a_prev[k]` for each `k` of the row. -/
def descMult (rate : ℚ) (aFlat : List ℚ) (_j : ℕ) (d : ℚ) (row : List ℚ) :
    List ℚ :=
  List.zipWith (fun wv a => wv - rate * d * a) row aFlat

/-- The pairwise slice combination of the backward reduction (`dense.rs`
lines 133-140): elementwise addition of two equal-length slices (the code
writes the sum into both operands and returns the first). -/
def combineSlices (s1 s2 : List ℚ) : List ℚ := List.zipWith (· + ·) s1 s2

/-- `rayon`'s `reduce_with` on the sequence of slices: `none` on the empty
sequence, otherwise the combination of all slices. The reduction tree shape
is unspecified in `rayon`, but `combineSlices` is exactly associative over
`ℚ`, so every tree yields this left fold. -/
def reduceWith (f : List ℚ → List ℚ → List ℚ) : List (List ℚ) → Option (List ℚ)
  | [] => none
  | x :: xs => some (xs.foldl f x)

/-- `Dense::forward_propagate` (`dense.rs` lines 60-91), with the ambient
`num_cpus::get()` made an explicit `threads` parameter. -/
def Dense.forward_propagate (l : Dense) (input : Tensor) (activate : Bool)
    (threads : ℕ) : Result Tensor :=
  if input.shape ≠ l.input_shape then .error ⟨⟩
  else
    let zeros := (Tensor.zeros l.output_shape).flattened
    let ilen := input.flattened.length
    let mpc := multsPerChunk zeros.length threads
    let oCh := chunks mpc zeros
    let wCh := chunks (mpc * ilen) l.weight
    let pairs := oCh.zip wCh
    .ok ⟨l.output_shape,
      procA (fwdMult l input.flattened activate) ilen mpc 0 pairs ++
        (oCh.drop pairs.length).flatten⟩

/-- `Dense::activate` (`dense.rs` lines 92-101): a fresh zero vector of
`output_shape.size` entries, each overwritten (via the truncating parallel
zip) with the activation of the matching input entry; the final
`Tensor::new(..).unwrap()` cannot fail since the vector length is exactly
`output_shape.size`. -/
def Dense.activate (l : Dense) (output : Tensor) : Result Tensor :=
  if output.shape ≠ l.output_shape then .error ⟨⟩
  else
    let act_vec := List.replicate output.shape.size (0 : ℚ)
    .ok ⟨l.output_shape,
      List.zipWith (fun _a o => l.activation.call o) act_vec output.flattened ++
        act_vec.drop output.flattened.length⟩

/-- `Dense::backpropagate_delta` (`dense.rs` lines 102-152): phase 1 fills
the scratch `prod` buffer with `weight_row[j] * delta_j`, the reduction sums
the `input_size`-slices of `prod` (the `.unwrap()` of the empty reduction is
modelled with default `[]`; Rust panics there), and the chain-rule phase
multiplies elementwise (via the truncating parallel zip) by
`sigma_lst.diff` of `a_lst`. -/
def Dense.backpropagate_delta (l : Dense) (delta a_lst : Tensor)
    (sigma_lst : Activation) (threads : ℕ) : Result Tensor :=
  if delta.shape ≠ l.output_shape ∨ a_lst.shape ≠ l.input_shape then .error ⟨⟩
  else
    let ilen := l.input_shape.size
    let dlen := delta.flattened.length
    let prodInit := List.replicate l.weight.length (0 : ℚ)
    let mpc := multsPerChunk dlen threads
    let dCh := chunks mpc delta.flattened
    let wCh := chunks (mpc * ilen) l.weight
    let pCh := chunks (mpc * ilen) prodInit
    let trips := (wCh.zip pCh).zip dCh
    let prod := procP prodMult ilen mpc 0 trips ++ (pCh.drop trips.length).flatten
    let sum_prod := (reduceWith combineSlices (chunks ilen prod)).getD []
    .ok ⟨l.input_shape,
      List.zipWith (fun dv a => dv * sigma_lst.diff a) sum_prod a_lst.flattened ++
        sum_prod.drop a_lst.flattened.length⟩

/-- `Dense::descend` (`dense.rs` lines 153-186). The Rust method takes
`&mut self` and returns `Result<()>`; we pass the state explicitly and
return the pair (returned value, layer after the call), so the early
`ShapeMismatchError` return leaves the layer exactly as it was. -/
def Dense.descend (l : Dense) (rate : ℚ) (delta a_lst : Tensor)
    (threads : ℕ) : Result Unit × Dense :=
  if delta.shape ≠ l.output_shape ∨ a_lst.shape ≠ l.input_shape then
    (.error ⟨⟩, l)
  else
    let dlen := delta.flattened.length
    let alen := a_lst.flattened.length
    let mpc := multsPerChunk dlen threads
    let dCh := chunks mpc delta.flattened
    let wCh := chunks (mpc * alen) l.weight
    let pairs := dCh.zip wCh
    (.ok (),
      { l with
        weight := procB (descMult rate a_lst.flattened) alen mpc 0 pairs ++
          (wCh.drop pairs.length).flatten
        bias := List.zipWith (fun b d => b - rate * d) l.bias delta.flattened ++
          l.bias.drop delta.flattened.length })

/-! Concrete layer and tensors from the spec's literal test cases (§8),
matching the unit tests of `dense.rs`. -/

/-- The 2×3 input shape of the literal test cases. -/
def exShapeIn : Shape := ⟨[2, 3]⟩

/-- The 2-element output shape of the literal test cases. -/
def exShapeOut : Shape := ⟨[2]⟩

/-- The literal weight buffer of the test cases. -/
def exW : List ℚ := [2, 1, -1, 3, 2, 1, 1, 0, 0, -2, 1, 0]

/-- The literal bias buffer of the test cases. -/
def exB : List ℚ := [-5, -1]

/-- The literal test layer with identity activation. -/
def exLayer : Dense := ⟨exShapeIn, exShapeOut, exW, exB, Activation.no⟩

/-- The literal test input `[1,7,8,-2,3,5]` of shape 2×3. -/
def exInput : Tensor := ⟨exShapeIn, [1, 7, 8, -2, 3, 5]⟩

/-- The literal test delta `[1,7]` of shape 2. -/
def exDelta : Tensor := ⟨exShapeOut, [1, 7]⟩

/-- The 3×4 output shape of the activation test case. -/
def exActOut : Shape := ⟨[3, 4]⟩

/-- The activation test layer (spec §8 uses Sigmoid there; the activation
module is not under `src/`, so the witness instantiates the generic
activation theorem at the spec's ReLU variant instead). -/
def exActLayer : Dense :=
  ⟨exShapeIn, exActOut, List.replicate 12 0, List.replicate 12 0, Activation.relu⟩

/-- The activation test tensor `[-3,-2,-1,0,1,2,3,4,5,6,7,8]` of shape 3×4. -/
def exActT : Tensor := ⟨exActOut, [-3, -2, -1, 0, 1, 2, 3, 4, 5, 6, 7, 8]⟩

/-! List access and summation lemmas. -/

theorem getD_drop' (l : List ℚ) (m k : ℕ) :
    (l.drop m).getD k 0 = l.getD (m + k) 0 := by
  induction l generalizing m with
  | nil => simp
  | cons a as ih =>
    cases m with
    | zero => simp
    | succ m => simpa [Nat.succ_add] using ih m

theorem getD_take' (l : List ℚ) (n k : ℕ) (hk : k < n) :
    (l.take n).getD k 0 = l.getD k 0 := by
  induction l generalizing n k with
  | nil => simp
  | cons a as ih =>
    cases n with
    | zero => omega
    | succ n =>
      cases k with
      | zero => simp
      | succ k => simpa using ih n k (by omega)

theorem sliceAt_length (s : ℕ) (w : List ℚ) (j : ℕ) :
    (sliceAt s w j).length = min s (w.length - j * s) := by
  simp [sliceAt]

theorem sliceAt_getD (s : ℕ) (w : List ℚ) (j k : ℕ) (hk : k < s) :
    (sliceAt s w j).getD k 0 = w.getD (j * s + k) 0 := by
  rw [sliceAt, getD_take' _ _ _ hk, getD_drop']

theorem sliceAt_take (s n : ℕ) (w : List ℚ) (j : ℕ) (hj : j < n) :
    sliceAt s (w.take (n * s)) j = sliceAt s w j := by
  have h1 : (j + 1) * s ≤ n * s := Nat.mul_le_mul_right s hj
  rw [add_mul, one_mul] at h1
  simp only [sliceAt, List.drop_take, List.take_take]
  congr 1
  omega

theorem sliceAt_drop (s n : ℕ) (w : List ℚ) (j : ℕ) :
    sliceAt s (w.drop (n * s)) j = sliceAt s w (n + j) := by
  simp only [sliceAt, List.drop_drop]
  congr 2
  ring

theorem foldl_add_eq {α : Type} (f : α → ℚ) (l : List α) (init : ℚ) :
    l.foldl (fun a x => a + f x) init = init + (l.map f).sum := by
  induction l generalizing init with
  | nil => simp
  | cons a as ih => simp [ih, add_assoc]

theorem zip_map_mul_sum (ws xs : List ℚ) (h : ws.length = xs.length) :
    ((ws.zip xs).map (fun p => p.1 * p.2)).sum =
      ∑ k ∈ Finset.range ws.length, ws.getD k 0 * xs.getD k 0 := by
  induction ws generalizing xs with
  | nil => simp
  | cons w ws ih =>
    cases xs with
    | nil => simp at h
    | cons x xs =>
      simp only [List.zip_cons_cons, List.map_cons, List.sum_cons, List.length_cons]
      rw [Finset.sum_range_succ']
      simp only [List.getD_cons_succ, List.getD_cons_zero]
      rw [ih xs (by simpa using h)]
      ring

theorem dotAcc_eq (init : ℚ) (ws xs : List ℚ) (h : ws.length = xs.length) :
    dotAcc init ws xs =
      init + ∑ k ∈ Finset.range ws.length, ws.getD k 0 * xs.getD k 0 := by
  rw [dotAcc, foldl_add_eq, zip_map_mul_sum ws xs h]

theorem range_map_sum (f : ℕ → ℚ) (n : ℕ) :
    ((List.range n).map f).sum = ∑ j ∈ Finset.range n, f j := by
  induction n with
  | zero => simp
  | succ n ih => rw [List.range_succ]; simp [ih, Finset.sum_range_succ]

theorem zipWith_replicate_map (g : ℚ → ℚ) (z : ℚ) (xs : List ℚ) :
    List.zipWith (fun _a o => g o) (List.replicate xs.length z) xs = xs.map g := by
  induction xs with
  | nil => simp
  | cons x xs ih => simpa [List.replicate_succ] using ih

/-! Lemmas about `chunks`. -/

theorem chunks_nil {α : Type} (n : ℕ) : chunks n ([] : List α) = [] := by
  rw [chunks]

theorem chunks_cons {α : Type} (n : ℕ) (hn : n ≠ 0) (l : List α) (hl : l ≠ []) :
    chunks n l = l.take n :: chunks n (l.drop n) := by
  cases l with
  | nil => exact absurd rfl hl
  | cons x xs => rw [chunks]; simp [hn]

theorem chunks_flatten_fuel {α : Type} (n : ℕ) (hn : 0 < n) :
    ∀ (fuel : ℕ) (l : List α), l.length ≤ fuel → (chunks n l).flatten = l := by
  intro fuel
  induction fuel with
  | zero =>
    intro l hl
    have h : l = [] := List.eq_nil_of_length_eq_zero (by omega)
    subst h
    simp [chunks_nil]
  | succ fuel ih =>
    intro l hl
    cases l with
    | nil => simp [chunks_nil]
    | cons x xs =>
      simp only [List.length_cons] at hl
      rw [chunks_cons n hn.ne' _ (by simp)]
      simp only [List.flatten_cons]
      rw [ih _ (by simp only [List.length_drop, List.length_cons]; omega)]
      exact List.take_append_drop n (x :: xs)

theorem chunks_flatten {α : Type} (n : ℕ) (hn : 0 < n) (l : List α) :
    (chunks n l).flatten = l :=
  chunks_flatten_fuel n hn l.length l le_rfl

theorem chunks_length_fuel {α : Type} (n : ℕ) (hn : 0 < n) :
    ∀ (fuel : ℕ) (l : List α), l.length ≤ fuel →
      (chunks n l).length = (l.length + n - 1) / n := by
  intro fuel
  induction fuel with
  | zero =>
    intro l hl
    have h : l = [] := List.eq_nil_of_length_eq_zero (by omega)
    subst h
    simp only [chunks_nil, List.length_nil]
    exact (Nat.div_eq_of_lt (by omega)).symm
  | succ fuel ih =>
    intro l hl
    cases l with
    | nil =>
      simp only [chunks_nil, List.length_nil]
      exact (Nat.div_eq_of_lt (by omega)).symm
    | cons x xs =>
      simp only [List.length_cons] at hl
      rw [chunks_cons n hn.ne' _ (by simp)]
      simp only [List.length_cons]
      rw [ih _ (by simp only [List.length_drop, List.length_cons]; omega)]
      simp only [List.length_drop, List.length_cons]
      rcases le_or_lt (xs.length + 1) n with hle | hlt
      · have h0 : xs.length + 1 - n = 0 := by omega
        have h2 : xs.length + 1 + n - 1 = xs.length + n := by omega
        rw [h0, h2, Nat.div_eq_of_lt (by omega), Nat.add_div_right _ hn,
          Nat.div_eq_of_lt (by omega)]
      · have h1 : xs.length + 1 - n + n - 1 = xs.length := by omega
        have h2 : xs.length + 1 + n - 1 = xs.length + n := by omega
        rw [h1, h2, Nat.add_div_right _ hn]

theorem chunks_length' {α : Type} (n : ℕ) (hn : 0 < n) (l : List α) :
    (chunks n l).length = (l.length + n - 1) / n :=
  chunks_length_fuel n hn l.length l le_rfl

theorem chunks_count_congr {α : Type} (n : ℕ) (hn : 0 < n) (l1 l2 : List α)
    (h : l1.length = l2.length) : (chunks n l1).length = (chunks n l2).length := by
  rw [chunks_length' n hn, chunks_length' n hn, h]

theorem chunks_count_mul_fuel (n s : ℕ) (hn : 0 < n) (hs : 0 < s) :
    ∀ (fuel : ℕ) (d W : List ℚ), d.length ≤ fuel → W.length = d.length * s →
      (chunks (n * s) W).length = (chunks n d).length := by
  intro fuel
  induction fuel with
  | zero =>
    intro d W hf hW
    have hd : d = [] := List.eq_nil_of_length_eq_zero (by omega)
    subst hd
    have hWn : W = [] := List.eq_nil_of_length_eq_zero (by simpa using hW)
    subst hWn
    simp [chunks_nil]
  | succ fuel ih =>
    intro d W hf hW
    cases d with
    | nil =>
      have hWn : W = [] := List.eq_nil_of_length_eq_zero (by simpa using hW)
      subst hWn
      simp [chunks_nil]
    | cons x xs =>
      simp only [List.length_cons] at hW
      have hpos : 0 < (xs.length + 1) * s := Nat.mul_pos (Nat.succ_pos _) hs
      have hW0 : W ≠ [] := by
        intro h
        subst h
        simp only [List.length_nil] at hW
        omega
      simp only [List.length_cons] at hf
      rw [chunks_cons n hn.ne' _ (by simp),
        chunks_cons (n * s) (Nat.mul_pos hn hs).ne' _ hW0]
      simp only [List.length_cons]
      congr 1
      apply ih
      · simp only [List.length_drop, List.length_cons]; omega
      · simp only [List.length_drop, List.length_cons, hW, Nat.sub_mul]

theorem chunks_count_mul (n s : ℕ) (hn : 0 < n) (hs : 0 < s) (d W : List ℚ)
    (hW : W.length = d.length * s) :
    (chunks (n * s) W).length = (chunks n d).length :=
  chunks_count_mul_fuel n s hn hs d.length d W le_rfl hW

theorem chunks_exact (s : ℕ) (hs : 0 < s) :
    ∀ (m : ℕ) (l : List ℚ), l.length = m * s →
      chunks s l = (List.range m).map (sliceAt s l) := by
  intro m
  induction m with
  | zero =>
    intro l hl
    have h : l = [] := List.eq_nil_of_length_eq_zero (by simpa using hl)
    subst h
    simp [chunks_nil]
  | succ m ih =>
    intro l hl
    have hpos : 0 < (m + 1) * s := Nat.mul_pos (Nat.succ_pos _) hs
    have hl0 : l ≠ [] := by
      intro h
      subst h
      simp only [List.length_nil] at hl
      omega
    have hdl : (l.drop s).length = m * s := by
      rw [Nat.succ_mul] at hl
      simp only [List.length_drop, hl]
      omega
    rw [chunks_cons s hs.ne' l hl0, ih (l.drop s) hdl, List.range_succ_eq_map]
    simp only [List.map_cons, List.map_map]
    congr 1
    · simp [sliceAt]
    · apply List.map_congr_left
      intro i _
      have h := sliceAt_drop s 1 l i
      simpa [one_mul, Nat.add_comm, Function.comp] using h

theorem chunks_mem_length_le {α : Type} (n : ℕ) (hn : 0 < n) :
    ∀ (fuel : ℕ) (l : List α), l.length ≤ fuel →
      ∀ c ∈ chunks n l, c.length ≤ n := by
  intro fuel
  induction fuel with
  | zero =>
    intro l hl c hc
    have h : l = [] := List.eq_nil_of_length_eq_zero (by omega)
    subst h
    simp [chunks_nil] at hc
  | succ fuel ih =>
    intro l hl c hc
    cases l with
    | nil => simp [chunks_nil] at hc
    | cons x xs =>
      simp only [List.length_cons] at hl
      rw [chunks_cons n hn.ne' _ (by simp)] at hc
      rcases List.mem_cons.mp hc with h | h
      · subst h; simp
      · exact ih _ (by simp only [List.length_drop, List.length_cons]; omega) c h

theorem chunks_dropLast_length {α : Type} (n : ℕ) (hn : 0 < n) :
    ∀ (fuel : ℕ) (l : List α), l.length ≤ fuel →
      ∀ c ∈ (chunks n l).dropLast, c.length = n := by
  intro fuel
  induction fuel with
  | zero =>
    intro l hl c hc
    have h : l = [] := List.eq_nil_of_length_eq_zero (by omega)
    subst h
    simp [chunks_nil] at hc
  | succ fuel ih =>
    intro l hl c hc
    cases l with
    | nil => simp [chunks_nil] at hc
    | cons x xs =>
      simp only [List.length_cons] at hl
      rw [chunks_cons n hn.ne' _ (by simp)] at hc
      rcases le_or_lt (xs.length + 1) n with hle | hlt
      · have hdrop : (x :: xs).drop n = [] :=
          List.drop_eq_nil_of_le (by simpa using hle)
        rw [hdrop, chunks_nil] at hc
        simp at hc
      · have hd0 : (x :: xs).drop n ≠ [] := by
          simp only [ne_eq, List.drop_eq_nil_iff, List.length_cons]
          omega
        have hch : chunks n ((x :: xs).drop n) ≠ [] := by
          rw [chunks_cons n hn.ne' _ hd0]
          simp
        rw [List.dropLast_cons_of_ne_nil hch] at hc
        rcases List.mem_cons.mp hc with h | h
        · subst h
          simp only [List.length_take, List.length_cons]
          omega
        · exact ih _ (by simp only [List.length_drop, List.length_cons]; omega) c h

/-! Lemmas about the per-row loop `cpf`. -/

theorem cpf_cons (g : ℕ → ℚ → List ℚ → List ℚ) (s : ℕ) (w : List ℚ)
    (gi si : ℕ) (a : ℚ) (as : List ℚ) :
    cpf g s w gi si (a :: as) =
      g gi a (sliceAt s w si) ++ cpf g s w (gi + 1) (si + 1) as := rfl

theorem cpf_append (g : ℕ → ℚ → List ℚ → List ℚ) (s : ℕ) (w : List ℚ)
    (d1 d2 : List ℚ) (gi si : ℕ) :
    cpf g s w gi si (d1 ++ d2) =
      cpf g s w gi si d1 ++ cpf g s w (gi + d1.length) (si + d1.length) d2 := by
  induction d1 generalizing gi si with
  | nil => simp [cpf]
  | cons a as ih =>
    simp only [List.cons_append, cpf_cons, ih, List.append_assoc, List.length_cons]
    rw [show gi + (as.length + 1) = gi + 1 + as.length by omega,
      show si + (as.length + 1) = si + 1 + as.length by omega]

theorem cpf_take (g : ℕ → ℚ → List ℚ → List ℚ) (s n : ℕ) (w : List ℚ)
    (d : List ℚ) (gi si : ℕ) (h : si + d.length ≤ n) :
    cpf g s (w.take (n * s)) gi si d = cpf g s w gi si d := by
  induction d generalizing gi si with
  | nil => rfl
  | cons a as ih =>
    simp only [List.length_cons] at h
    simp only [cpf_cons]
    rw [sliceAt_take s n w si (by omega), ih _ _ (by omega)]

theorem cpf_drop (g : ℕ → ℚ → List ℚ → List ℚ) (s n : ℕ) (w : List ℚ)
    (d : List ℚ) (gi si : ℕ) :
    cpf g s (w.drop (n * s)) gi si d = cpf g s w gi (n + si) d := by
  induction d generalizing gi si with
  | nil => rfl
  | cons a as ih =>
    simp only [cpf_cons]
    rw [sliceAt_drop, ih, show n + (si + 1) = n + si + 1 from by omega]

theorem cpf_length (g : ℕ → ℚ → List ℚ → List ℚ) (s : ℕ) (w : List ℚ)
    (c : ℕ) (d : List ℚ) (gi si : ℕ)
    (hg : ∀ j < d.length, (g (gi + j) (d.getD j 0) (sliceAt s w (si + j))).length = c) :
    (cpf g s w gi si d).length = c * d.length := by
  induction d generalizing gi si with
  | nil => simp [cpf]
  | cons a as ih =>
    simp only [cpf_cons, List.length_append, List.length_cons]
    have h0 := hg 0 (by simp)
    simp only [Nat.add_zero, List.getD_cons_zero] at h0
    rw [h0, ih (gi + 1) (si + 1) (fun j hj => by
      have h := hg (j + 1) (by simpa using Nat.succ_lt_succ hj)
      simpa [List.getD_cons_succ, show gi + (j + 1) = gi + 1 + j by omega,
        show si + (j + 1) = si + 1 + j by omega] using h)]
    ring

theorem cpf_getD (g : ℕ → ℚ → List ℚ → List ℚ) (s : ℕ) (w : List ℚ)
    (c : ℕ) (d : List ℚ) (gi si j k : ℕ)
    (hg : ∀ j' < d.length, (g (gi + j') (d.getD j' 0) (sliceAt s w (si + j'))).length = c)
    (hj : j < d.length) (hk : k < c) :
    (cpf g s w gi si d).getD (j * c + k) 0 =
      (g (gi + j) (d.getD j 0) (sliceAt s w (si + j))).getD k 0 := by
  induction d generalizing gi si j with
  | nil => exact absurd hj (by simp)
  | cons a as ih =>
    have h0 := hg 0 (by simp)
    simp only [Nat.add_zero, List.getD_cons_zero] at h0
    cases j with
    | zero =>
      simp only [cpf_cons, Nat.zero_mul, Nat.zero_add, Nat.add_zero,
        List.getD_cons_zero]
      rw [List.getD_append _ _ _ _ (by rw [h0]; exact hk)]
    | succ j =>
      simp only [cpf_cons, List.getD_cons_succ]
      have hidx : (j + 1) * c + k = (g gi a (sliceAt s w si)).length + (j * c + k) := by
        rw [h0]; ring
      rw [hidx, List.getD_append_right _ _ _ _ (by omega), Nat.add_sub_cancel_left,
        ih (gi + 1) (si + 1) j (fun j' hj' => by
          have h := hg (j' + 1) (by simpa using Nat.succ_lt_succ hj')
          simpa [List.getD_cons_succ, show gi + (j' + 1) = gi + 1 + j' by omega,
            show si + (j' + 1) = si + 1 + j' by omega] using h)
        (by simpa using hj)]
      rw [show gi + 1 + j = gi + (j + 1) by omega, show si + 1 + j = si + (j + 1) by omega]

/-! The three chunked loops equal the unchunked per-row loop over the whole
driver and payload. -/

theorem take_mul_drop_nil (n s : ℕ) (d W : List ℚ) (hW : W.length = d.length * s) :
    (W.take (n * s)).drop ((d.take n).length * s) = [] := by
  apply List.drop_eq_nil_of_le
  simp only [List.length_take, List.length_drop, hW]
  rcases le_or_lt n d.length with h | h
  · calc min (n * s) (d.length * s) ≤ n * s := Nat.min_le_left _ _
    _ = min n d.length * s := by rw [Nat.min_eq_left h]
  · calc min (n * s) (d.length * s) ≤ d.length * s := Nat.min_le_right _ _
    _ = min n d.length * s := by rw [Nat.min_eq_right (by omega)]

theorem procA_eq_fuel (g : ℕ → ℚ → List ℚ → List ℚ) (s n : ℕ)
    (hn : 0 < n) (hs : 0 < s) :
    ∀ (fuel : ℕ) (d W : List ℚ) (i : ℕ), d.length ≤ fuel →
      W.length = d.length * s →
      procA g s n i ((chunks n d).zip (chunks (n * s) W)) = cpf g s W (i * n) 0 d := by
  intro fuel
  induction fuel with
  | zero =>
    intro d W i hf hW
    have hd : d = [] := List.eq_nil_of_length_eq_zero (by omega)
    subst hd
    simp [chunks_nil, procA, cpf]
  | succ fuel ih =>
    intro d W i hf hW
    cases d with
    | nil => simp [chunks_nil, procA, cpf]
    | cons x xs =>
      simp only [List.length_cons] at hf hW
      have hW0 : W ≠ [] := by
        intro h
        subst h
        simp only [List.length_nil] at hW
        have hmul : 0 < (xs.length + 1) * s := Nat.mul_pos (by omega) hs
        omega
      rw [chunks_cons n hn.ne' _ (by simp),
        chunks_cons (n * s) (Nat.mul_pos hn hs).ne' _ hW0]
      have h1 : ((x :: xs).drop n).length ≤ fuel := by
        simp only [List.length_drop, List.length_cons]
        omega
      have h2 : (W.drop (n * s)).length = ((x :: xs).drop n).length * s := by
        simp only [List.length_drop, List.length_cons, hW, Nat.sub_mul]
      have h3 : (0 : ℕ) + ((x :: xs).take n).length ≤ n := by
        simp only [Nat.zero_add, List.length_take, List.length_cons]
        omega
      have ihx := ih ((x :: xs).drop n) (W.drop (n * s)) (i + 1) h1 h2
      simp only [List.zip_cons_cons, procA]
      simp only [List.zip] at ihx
      rw [ihx, cpf_take g s n W _ _ _ h3, cpf_drop]
      conv_rhs => rw [← List.take_append_drop n (x :: xs)]
      rw [cpf_append]
      rcases le_or_lt n (xs.length + 1) with hle | hlt
      · have hlen : ((x :: xs).take n).length = n := by
          simp only [List.length_take, List.length_cons]
          omega
        rw [hlen, Nat.zero_add, Nat.succ_mul]
        simp only [Nat.add_zero]
      · have hdrop : (x :: xs).drop n = [] :=
          List.drop_eq_nil_of_le (by simp only [List.length_cons]; omega)
        rw [hdrop]
        rfl

theorem procB_eq_fuel (g : ℕ → ℚ → List ℚ → List ℚ) (s n : ℕ)
    (hn : 0 < n) (hs : 0 < s) :
    ∀ (fuel : ℕ) (d W : List ℚ) (i : ℕ), d.length ≤ fuel →
      W.length = d.length * s →
      procB g s n i ((chunks n d).zip (chunks (n * s) W)) = cpf g s W (i * n) 0 d := by
  intro fuel
  induction fuel with
  | zero =>
    intro d W i hf hW
    have hd : d = [] := List.eq_nil_of_length_eq_zero (by omega)
    subst hd
    simp [chunks_nil, procB, cpf]
  | succ fuel ih =>
    intro d W i hf hW
    cases d with
    | nil => simp [chunks_nil, procB, cpf]
    | cons x xs =>
      have hWd := take_mul_drop_nil n s (x :: xs) W hW
      simp only [List.length_cons] at hf hW
      have hW0 : W ≠ [] := by
        intro h
        subst h
        simp only [List.length_nil] at hW
        have hmul : 0 < (xs.length + 1) * s := Nat.mul_pos (by omega) hs
        omega
      rw [chunks_cons n hn.ne' _ (by simp),
        chunks_cons (n * s) (Nat.mul_pos hn hs).ne' _ hW0]
      have h1 : ((x :: xs).drop n).length ≤ fuel := by
        simp only [List.length_drop, List.length_cons]
        omega
      have h2 : (W.drop (n * s)).length = ((x :: xs).drop n).length * s := by
        simp only [List.length_drop, List.length_cons, hW, Nat.sub_mul]
      have h3 : (0 : ℕ) + ((x :: xs).take n).length ≤ n := by
        simp only [Nat.zero_add, List.length_take, List.length_cons]
        omega
      have ihx := ih ((x :: xs).drop n) (W.drop (n * s)) (i + 1) h1 h2
      simp only [List.zip_cons_cons, procB]
      simp only [List.zip] at ihx
      rw [hWd, List.append_nil, ihx, cpf_take g s n W _ _ _ h3, cpf_drop]
      conv_rhs => rw [← List.take_append_drop n (x :: xs)]
      rw [cpf_append]
      rcases le_or_lt n (xs.length + 1) with hle | hlt
      · have hlen : ((x :: xs).take n).length = n := by
          simp only [List.length_take, List.length_cons]
          omega
        rw [hlen, Nat.zero_add, Nat.succ_mul]
        simp only [Nat.add_zero]
      · have hdrop : (x :: xs).drop n = [] :=
          List.drop_eq_nil_of_le (by simp only [List.length_cons]; omega)
        rw [hdrop]
        rfl

theorem procP_eq_fuel (g : ℕ → ℚ → List ℚ → List ℚ) (s n : ℕ)
    (hn : 0 < n) (hs : 0 < s) :
    ∀ (fuel : ℕ) (d W P : List ℚ) (i : ℕ), d.length ≤ fuel →
      W.length = d.length * s → P.length = W.length →
      procP g s n i (((chunks (n * s) W).zip (chunks (n * s) P)).zip (chunks n d)) =
        cpf g s W (i * n) 0 d := by
  intro fuel
  induction fuel with
  | zero =>
    intro d W P i hf hW hP
    have hd : d = [] := List.eq_nil_of_length_eq_zero (by omega)
    subst hd
    simp [chunks_nil, procP, cpf]
  | succ fuel ih =>
    intro d W P i hf hW hP
    cases d with
    | nil => simp [chunks_nil, procP, cpf]
    | cons x xs =>
      have hPd := take_mul_drop_nil n s (x :: xs) P (hP.trans hW)
      simp only [List.length_cons] at hf hW
      have hpos : 0 < (xs.length + 1) * s := Nat.mul_pos (by omega) hs
      have hW0 : W ≠ [] := by
        intro h
        subst h
        simp only [List.length_nil] at hW
        omega
      have hP0 : P ≠ [] := by
        intro h
        rw [h] at hP
        simp only [List.length_nil] at hP
        omega
      rw [chunks_cons n hn.ne' _ (by simp),
        chunks_cons (n * s) (Nat.mul_pos hn hs).ne' _ hW0,
        chunks_cons (n * s) (Nat.mul_pos hn hs).ne' _ hP0]
      have h1 : ((x :: xs).drop n).length ≤ fuel := by
        simp only [List.length_drop, List.length_cons]
        omega
      have h2 : (W.drop (n * s)).length = ((x :: xs).drop n).length * s := by
        simp only [List.length_drop, List.length_cons, hW, Nat.sub_mul]
      have h2p : (P.drop (n * s)).length = (W.drop (n * s)).length := by
        simp only [List.length_drop, hP]
      have h3 : (0 : ℕ) + ((x :: xs).take n).length ≤ n := by
        simp only [Nat.zero_add, List.length_take, List.length_cons]
        omega
      have ihx := ih ((x :: xs).drop n) (W.drop (n * s)) (P.drop (n * s)) (i + 1) h1 h2 h2p
      simp only [List.zip_cons_cons, procP]
      simp only [List.zip] at ihx
      rw [hPd, List.append_nil, ihx, cpf_take g s n W _ _ _ h3, cpf_drop]
      conv_rhs => rw [← List.take_append_drop n (x :: xs)]
      rw [cpf_append]
      rcases le_or_lt n (xs.length + 1) with hle | hlt
      · have hlen : ((x :: xs).take n).length = n := by
          simp only [List.length_take, List.length_cons]
          omega
        rw [hlen, Nat.zero_add, Nat.succ_mul]
        simp only [Nat.add_zero]
      · have hdrop : (x :: xs).drop n = [] :=
          List.drop_eq_nil_of_le (by simp only [List.length_cons]; omega)
        rw [hdrop]
        rfl

theorem zip_chunks_length (n s : ℕ) (hn : 0 < n) (hs : 0 < s) (d W : List ℚ)
    (hW : W.length = d.length * s) :
    ((chunks n d).zip (chunks (n * s) W)).length = (chunks n d).length := by
  rw [List.length_zip, chunks_count_mul n s hn hs d W hW, Nat.min_self]

/-! Further access lemmas used to read off the elementwise formulas. -/

theorem range_map_getD (f : ℕ → ℚ) (n j : ℕ) (hj : j < n) :
    ((List.range n).map f).getD j 0 = f j := by
  rw [List.getD_eq_getElem _ _ (by simpa using hj), List.getElem_map,
    List.getElem_range]

theorem zipWith_getD' (f : ℚ → ℚ → ℚ) (as bs : List ℚ) (k : ℕ)
    (ha : k < as.length) (hb : k < bs.length) :
    (List.zipWith f as bs).getD k 0 = f (as.getD k 0) (bs.getD k 0) := by
  rw [List.getD_eq_getElem _ _ (by rw [List.length_zipWith]; omega),
    List.getElem_zipWith, List.getD_eq_getElem _ _ ha, List.getD_eq_getElem _ _ hb]

theorem foldl_combine_length (s : ℕ) :
    ∀ (ys : List (List ℚ)) (x0 : List ℚ), x0.length = s →
      (∀ y ∈ ys, y.length = s) → (ys.foldl combineSlices x0).length = s := by
  intro ys
  induction ys with
  | nil => intro x0 h0 _; simpa using h0
  | cons y ys ih =>
    intro x0 h0 hall
    simp only [List.foldl_cons]
    apply ih
    · simp only [combineSlices, List.length_zipWith, h0, hall y (by simp),
        Nat.min_self]
    · intro y' hy'
      exact hall y' (by simp [hy'])

theorem foldl_combine_getD (s k : ℕ) (hk : k < s) :
    ∀ (ys : List (List ℚ)) (x0 : List ℚ), x0.length = s →
      (∀ y ∈ ys, y.length = s) →
      (ys.foldl combineSlices x0).getD k 0 =
        x0.getD k 0 + (ys.map (fun y => y.getD k 0)).sum := by
  intro ys
  induction ys with
  | nil => intro x0 _ _; simp
  | cons y ys ih =>
    intro x0 h0 hall
    simp only [List.foldl_cons, List.map_cons, List.sum_cons]
    rw [ih (combineSlices x0 y)
      (by simp only [combineSlices, List.length_zipWith, h0, hall y (by simp),
        Nat.min_self])
      (fun y' hy' => hall y' (by simp [hy']))]
    rw [combineSlices, zipWith_getD' _ _ _ _ (by omega) (by rw [hall y (by simp)]; omega)]
    ring

theorem flatten_map_range_length (F : ℕ → ℕ → ℚ) (m s : ℕ) :
    (((List.range m).map fun j => (List.range s).map (F j)).flatten).length = m * s := by
  induction m with
  | zero => simp
  | succ m ih =>
    rw [List.range_succ]
    simp only [List.map_append, List.flatten_append, List.length_append, ih]
    simp [Nat.succ_mul]

theorem flatten_map_range_getD (F : ℕ → ℕ → ℚ) (m s j k : ℕ)
    (hj : j < m) (hk : k < s) :
    (((List.range m).map fun j => (List.range s).map (F j)).flatten).getD (j * s + k) 0 =
      F j k := by
  induction m with
  | zero => omega
  | succ m ih =>
    rw [List.range_succ]
    simp only [List.map_append, List.flatten_append, List.map_cons, List.map_nil,
      List.flatten_cons, List.flatten_nil, List.append_nil]
    rcases le_or_lt m j with hje | hjl
    · have hj' : j = m := by omega
      subst hj'
      rw [List.getD_append_right _ _ _ _
        (by rw [flatten_map_range_length]; omega)]
      rw [flatten_map_range_length]
      rw [show j * s + k - j * s = k by omega]
      exact range_map_getD _ _ _ hk
    · rw [List.getD_append _ _ _ _ (by
        rw [flatten_map_range_length]
        calc j * s + k < j * s + s := by omega
        _ = (j + 1) * s := by ring
        _ ≤ m * s := Nat.mul_le_mul_right s (by omega))]
      exact ih hjl

/-! Characterizations of the four layer operations, under the data-model
invariants of spec §3 (valid tensors, positive shape sizes, weight and bias
buffers of the invariant lengths). -/

theorem forward_propagate_mismatch (l : Dense) (input : Tensor) (act : Bool)
    (threads : ℕ) (h : input.shape ≠ l.input_shape) :
    l.forward_propagate input act threads = .error ⟨⟩ := by
  rw [Dense.forward_propagate, if_pos h]

theorem activate_mismatch (l : Dense) (t : Tensor) (h : t.shape ≠ l.output_shape) :
    l.activate t = .error ⟨⟩ := by
  rw [Dense.activate, if_pos h]

theorem backpropagate_delta_mismatch (l : Dense) (delta a_lst : Tensor)
    (sigma_lst : Activation) (threads : ℕ)
    (h : delta.shape ≠ l.output_shape ∨ a_lst.shape ≠ l.input_shape) :
    l.backpropagate_delta delta a_lst sigma_lst threads = .error ⟨⟩ := by
  rw [Dense.backpropagate_delta, if_pos h]

theorem descend_mismatch (l : Dense) (rate : ℚ) (delta a_lst : Tensor)
    (threads : ℕ) (h : delta.shape ≠ l.output_shape ∨ a_lst.shape ≠ l.input_shape) :
    l.descend rate delta a_lst threads = (.error ⟨⟩, l) := by
  rw [Dense.descend, if_pos h]

theorem forward_propagate_eq (l : Dense) (input : Tensor) (act : Bool)
    (threads : ℕ)
    (hsh : input.shape = l.input_shape)
    (hlen : input.flattened.length = l.input_shape.size)
    (hil : 0 < l.input_shape.size)
    (hwt : l.weight.length = l.input_shape.size * l.output_shape.size) :
    l.forward_propagate input act threads = .ok ⟨l.output_shape,
      (List.range l.output_shape.size).map (fun j =>
        let o := l.bias.getD j 0 +
          ∑ k ∈ Finset.range l.input_shape.size,
            l.weight.getD (j * l.input_shape.size + k) 0 * input.flattened.getD k 0
        if act then l.activation.call o else o)⟩ := by
  rw [← hlen] at hil hwt ⊢
  rw [Dense.forward_propagate, if_neg (by simpa using hsh)]
  simp only [Tensor.zeros, List.length_replicate]
  refine congrArg (fun v => (Except.ok (Tensor.mk l.output_shape v) : Result Tensor)) ?_
  set ilen := input.flattened.length with hi
  set olen := l.output_shape.size with ho
  set mpc := multsPerChunk olen threads with hm
  have hmpc : 0 < mpc := Nat.succ_pos _
  have hWlen : l.weight.length = (List.replicate olen (0 : ℚ)).length * ilen := by
    rw [List.length_replicate, hwt]
    ring
  have hzip := zip_chunks_length mpc ilen hmpc hil _ _ hWlen
  rw [hzip, List.drop_length, List.flatten_nil, List.append_nil,
    procA_eq_fuel _ _ _ hmpc hil _ _ _ 0 le_rfl hWlen, Nat.zero_mul]
  have hg : ∀ j < (List.replicate olen (0 : ℚ)).length,
      ((fwdMult l input.flattened act) (0 + j)
        ((List.replicate olen (0 : ℚ)).getD j 0)
        (sliceAt ilen l.weight (0 + j))).length = 1 := fun _ _ => rfl
  apply List.ext_getElem
  · rw [cpf_length _ _ _ 1 _ _ _ hg, List.length_replicate, List.length_map,
      List.length_range]
    omega
  · intro p h1 h2
    have hp : p < olen := by
      simpa using h2
    have hcp := cpf_getD (fwdMult l input.flattened act) ilen l.weight 1
      (List.replicate olen (0 : ℚ)) 0 0 p 0 hg (by simpa using hp) (by omega)
    simp only [Nat.mul_one, Nat.add_zero, Nat.zero_add] at hcp
    rw [← List.getD_eq_getElem _ (0 : ℚ), ← List.getD_eq_getElem _ (0 : ℚ), hcp,
      range_map_getD _ _ _ hp]
    have hrow : (sliceAt ilen l.weight p).length = ilen := by
      rw [sliceAt_length, hwt]
      have hle : (p + 1) * ilen ≤ olen * ilen := Nat.mul_le_mul_right ilen (by omega)
      rw [add_mul, one_mul] at hle
      rw [Nat.min_eq_left (by rw [mul_comm ilen olen]; omega)]
    simp only [fwdMult]
    rw [dotAcc_eq _ _ _ (by rw [hrow]), hrow]
    simp only [List.getD_cons_zero]
    have hsum : ∑ k ∈ Finset.range ilen,
        (sliceAt ilen l.weight p).getD k 0 * input.flattened.getD k 0 =
        ∑ k ∈ Finset.range ilen,
          l.weight.getD (p * ilen + k) 0 * input.flattened.getD k 0 := by
      apply Finset.sum_congr rfl
      intro k hk
      rw [sliceAt_getD _ _ _ _ (Finset.mem_range.mp hk)]
    rw [hsum]

theorem activate_eq (l : Dense) (t : Tensor)
    (hsh : t.shape = l.output_shape)
    (hlen : t.flattened.length = t.shape.size) :
    l.activate t = .ok ⟨l.output_shape, t.flattened.map l.activation.call⟩ := by
  rw [Dense.activate, if_neg (by simpa using hsh)]
  rw [show t.shape.size = t.flattened.length from hlen.symm]
  dsimp only
  rw [zipWith_replicate_map, List.drop_eq_nil_of_le (by simp),
    List.append_nil]

theorem sliceAt_full (W : List ℚ) (s L j : ℕ) (hW : W.length = L * s)
    (hj : j < L) : (sliceAt s W j).length = s := by
  rw [sliceAt_length, hW]
  have h1 : (j + 1) * s ≤ L * s := Nat.mul_le_mul_right s (by omega)
  rw [add_mul, one_mul] at h1
  exact Nat.min_eq_left (by omega)

theorem descend_eq (l : Dense) (rate : ℚ) (delta a_lst : Tensor) (threads : ℕ)
    (hshd : delta.shape = l.output_shape)
    (hsha : a_lst.shape = l.input_shape)
    (hdlen : delta.flattened.length = l.output_shape.size)
    (halen : a_lst.flattened.length = l.input_shape.size)
    (hil : 0 < l.input_shape.size)
    (hwt : l.weight.length = l.input_shape.size * l.output_shape.size)
    (hb : l.bias.length = l.output_shape.size) :
    l.descend rate delta a_lst threads = (.ok (),
      { l with
        weight := ((List.range l.output_shape.size).map (fun j =>
          (List.range l.input_shape.size).map (fun k =>
            l.weight.getD (j * l.input_shape.size + k) 0 -
              rate * delta.flattened.getD j 0 * a_lst.flattened.getD k 0))).flatten
        bias := (List.range l.output_shape.size).map (fun j =>
          l.bias.getD j 0 - rate * delta.flattened.getD j 0) }) := by
  rw [← halen] at hil
  rw [← hdlen, ← halen] at hwt
  rw [← hdlen] at hb
  rw [← hdlen, ← halen]
  rw [Dense.descend, if_neg (by simp [hshd, hsha])]
  dsimp only
  set alen := a_lst.flattened.length with ha
  set dlen := delta.flattened.length with hd
  set mpc := multsPerChunk dlen threads with hm
  have hmpc : 0 < mpc := Nat.succ_pos _
  have hWlen : l.weight.length = dlen * alen := by rw [hwt]; ring
  have hcount := chunks_count_mul mpc alen hmpc hil delta.flattened l.weight hWlen
  have hzip : ((chunks mpc delta.flattened).zip
      (chunks (mpc * alen) l.weight)).length = (chunks (mpc * alen) l.weight).length := by
    rw [List.length_zip, hcount, Nat.min_self]
  congr 1
  rw [hzip, List.drop_length, List.flatten_nil, List.append_nil,
    procB_eq_fuel _ _ _ hmpc hil _ _ _ 0 le_rfl hWlen, Nat.zero_mul]
  have hg : ∀ j < dlen,
      ((descMult rate a_lst.flattened) (0 + j) (delta.flattened.getD j 0)
        (sliceAt alen l.weight (0 + j))).length = alen := by
    intro j hj
    simp only [descMult, List.length_zipWith, Nat.zero_add]
    rw [sliceAt_full l.weight alen dlen j hWlen hj, Nat.min_self]
  congr 1
  · apply List.ext_getElem
    · rw [cpf_length _ _ _ alen _ _ _ hg, flatten_map_range_length]
      ring
    · intro p h1 h2
      rw [cpf_length _ _ _ alen _ _ _ hg, ← hd] at h1
      have hj : p / alen < dlen := (Nat.div_lt_iff_lt_mul hil).mpr
        (by rw [Nat.mul_comm]; exact h1)
      have hk : p % alen < alen := Nat.mod_lt _ hil
      have hdm := Nat.div_add_mod p alen
      rw [Nat.mul_comm alen (p / alen)] at hdm
      have hp : p = p / alen * alen + p % alen := by omega
      rw [← List.getD_eq_getElem _ (0 : ℚ), ← List.getD_eq_getElem _ (0 : ℚ), hp,
        cpf_getD _ _ _ alen _ _ _ _ _ hg hj hk,
        flatten_map_range_getD _ _ _ _ _ hj hk]
      simp only [Nat.zero_add, descMult]
      rw [zipWith_getD' _ _ _ _
        (by rw [sliceAt_full l.weight alen dlen _ hWlen hj]; exact hk) (by omega),
        sliceAt_getD _ _ _ _ hk]
  · apply List.ext_getElem
    · simp only [List.length_append, List.length_zipWith, List.length_map,
        List.length_range, List.length_drop, hb]
      omega
    · intro p h1 h2
      have hp : p < dlen := by
        simpa using h2
      rw [← List.getD_eq_getElem _ (0 : ℚ), ← List.getD_eq_getElem _ (0 : ℚ),
        List.getD_append _ _ _ _ (by rw [List.length_zipWith, hb]; omega),
        zipWith_getD' _ _ _ _ (by omega) (by omega),
        range_map_getD _ _ _ hp]

theorem sum_prod_spec (W deltaF : List ℚ) (ilen : ℕ) (hil : 0 < ilen)
    (hd0 : 0 < deltaF.length)
    (hW : W.length = deltaF.length * ilen) :
    ((reduceWith combineSlices
        (chunks ilen (cpf prodMult ilen W 0 0 deltaF))).getD []).length = ilen ∧
    ∀ k < ilen,
      ((reduceWith combineSlices
          (chunks ilen (cpf prodMult ilen W 0 0 deltaF))).getD []).getD k 0 =
        ∑ j ∈ Finset.range deltaF.length,
          W.getD (j * ilen + k) 0 * deltaF.getD j 0 := by
  have hg : ∀ j < deltaF.length,
      (prodMult (0 + j) (deltaF.getD j 0) (sliceAt ilen W (0 + j))).length = ilen := by
    intro j hj
    simp only [prodMult, List.length_map, Nat.zero_add]
    exact sliceAt_full W ilen deltaF.length j hW hj
  have hplen : (cpf prodMult ilen W 0 0 deltaF).length = deltaF.length * ilen := by
    rw [cpf_length _ _ _ ilen _ _ _ hg]
    ring
  have hslice : ∀ j < deltaF.length,
      (sliceAt ilen (cpf prodMult ilen W 0 0 deltaF) j).length = ilen :=
    fun j hj => sliceAt_full _ ilen deltaF.length j hplen hj
  have hval : ∀ k < ilen, ∀ j < deltaF.length,
      (sliceAt ilen (cpf prodMult ilen W 0 0 deltaF) j).getD k 0 =
        W.getD (j * ilen + k) 0 * deltaF.getD j 0 := by
    intro k hk j hj
    rw [sliceAt_getD _ _ _ _ hk, cpf_getD _ _ _ ilen _ _ _ _ _ hg hj hk]
    simp only [Nat.zero_add, prodMult]
    rw [List.getD_eq_getElem _ _ (by
        simp only [List.length_map]
        rw [sliceAt_full W ilen deltaF.length j hW hj]
        exact hk),
      List.getElem_map, ← List.getD_eq_getElem, sliceAt_getD _ _ _ _ hk]
  obtain ⟨m, hm⟩ : ∃ m, deltaF.length = m + 1 := ⟨deltaF.length - 1, by omega⟩
  rw [chunks_exact ilen hil deltaF.length _ (by rw [hplen]), hm,
    List.range_succ_eq_map, List.map_cons]
  simp only [reduceWith, Option.getD_some, List.map_map]
  have hmem : ∀ y ∈ (List.range m).map
      (sliceAt ilen (cpf prodMult ilen W 0 0 deltaF) ∘ Nat.succ), y.length = ilen := by
    intro y hy
    obtain ⟨i, hi, rfl⟩ := List.mem_map.mp hy
    exact hslice (i + 1) (by simp at hi; omega)
  constructor
  · exact foldl_combine_length ilen _ _ (hslice 0 (by omega)) hmem
  · intro k hk
    rw [foldl_combine_getD ilen k hk _ _ (hslice 0 (by omega)) hmem]
    simp only [List.map_map]
    rw [range_map_sum, Finset.sum_range_succ']
    rw [hval k hk 0 (by omega)]
    simp only [Function.comp_apply, Nat.succ_eq_add_one]
    rw [Finset.sum_congr rfl (fun i hi => hval k hk (i + 1) (by simp at hi; omega))]
    ring

theorem backpropagate_delta_eq (l : Dense) (delta a_lst : Tensor)
    (sigma_lst : Activation) (threads : ℕ)
    (hshd : delta.shape = l.output_shape)
    (hsha : a_lst.shape = l.input_shape)
    (hdlen : delta.flattened.length = l.output_shape.size)
    (halen : a_lst.flattened.length = l.input_shape.size)
    (hil : 0 < l.input_shape.size)
    (hol : 0 < l.output_shape.size)
    (hwt : l.weight.length = l.input_shape.size * l.output_shape.size) :
    l.backpropagate_delta delta a_lst sigma_lst threads = .ok ⟨l.input_shape,
      (List.range l.input_shape.size).map (fun k =>
        (∑ j ∈ Finset.range l.output_shape.size,
          l.weight.getD (j * l.input_shape.size + k) 0 * delta.flattened.getD j 0) *
          sigma_lst.diff (a_lst.flattened.getD k 0))⟩ := by
  rw [Dense.backpropagate_delta, if_neg (by simp [hshd, hsha])]
  dsimp only
  set ilen := l.input_shape.size with hi
  set dlen := delta.flattened.length with hd
  set mpc := multsPerChunk dlen threads with hm
  have hmpc : 0 < mpc := Nat.succ_pos _
  have hWlen : l.weight.length = dlen * ilen := by rw [hwt, hdlen]; ring
  have hPlen : (List.replicate l.weight.length (0 : ℚ)).length = l.weight.length :=
    List.length_replicate _ _
  have hcw := chunks_count_mul mpc ilen hmpc hil delta.flattened l.weight hWlen
  have hcp : (chunks (mpc * ilen) (List.replicate l.weight.length (0 : ℚ))).length =
      (chunks (mpc * ilen) l.weight).length :=
    chunks_count_congr (mpc * ilen) (Nat.mul_pos hmpc hil) _ _ hPlen
  have htrips : (((chunks (mpc * ilen) l.weight).zip
      (chunks (mpc * ilen) (List.replicate l.weight.length (0 : ℚ)))).zip
      (chunks mpc delta.flattened)).length =
      (chunks (mpc * ilen) (List.replicate l.weight.length (0 : ℚ))).length := by
    rw [List.length_zip, List.length_zip, hcp, hcw, Nat.min_self, Nat.min_self]
  rw [htrips, List.drop_length, List.flatten_nil, List.append_nil,
    procP_eq_fuel _ _ _ hmpc hil _ _ _ _ 0 le_rfl hWlen hPlen, Nat.zero_mul]
  obtain ⟨hsplen, hspget⟩ := sum_prod_spec l.weight delta.flattened ilen hil
    (by rw [← hd, hdlen]; exact hol) hWlen
  refine congrArg (fun v => (Except.ok (Tensor.mk l.input_shape v) : Result Tensor)) ?_
  apply List.ext_getElem
  · simp only [List.length_append, List.length_zipWith, List.length_drop,
      List.length_map, List.length_range, hsplen, halen]
    omega
  · intro p h1 h2
    have hp : p < ilen := by
      simpa using h2
    rw [← List.getD_eq_getElem _ (0 : ℚ), ← List.getD_eq_getElem _ (0 : ℚ),
      List.getD_append _ _ _ _ (by rw [List.length_zipWith, hsplen, halen]; omega),
      zipWith_getD' _ _ _ _ (by omega) (by rw [halen]; exact hp),
      range_map_getD _ _ _ hp, hspget p hp, ← hd, hdlen]

/-! The claims. -/

/-- C1: for every input tensor of the layer's input shape (and a layer
satisfying the data-model invariants), `forward_propagate(input, activate)`
returns `Ok` with a tensor of the layer's output shape whose element at every
output index `j` is `bias[j] + Σ_k weight[j*input_size + k] * input[k]`, with
the activation applied exactly when the flag is set. -/
theorem C1_forward_correct (l : Dense) (input : Tensor) (act : Bool)
    (threads : ℕ) (hth : 1 ≤ threads)
    (hsh : input.shape = l.input_shape)
    (hlen : input.flattened.length = l.input_shape.size)
    (hil : 0 < l.input_shape.size)
    (hwt : l.weight.length = l.input_shape.size * l.output_shape.size)
    (hb : l.bias.length = l.output_shape.size) :
    l.forward_propagate input act threads = .ok ⟨l.output_shape,
      (List.range l.output_shape.size).map (fun j =>
        let o := l.bias.getD j 0 +
          ∑ k ∈ Finset.range l.input_shape.size,
            l.weight.getD (j * l.input_shape.size + k) 0 * input.flattened.getD k 0
        if act then l.activation.call o else o)⟩ :=
  forward_propagate_eq l input act threads hsh hlen hil hwt

/-- C1 witness: the literal case of spec §8 — input `[1,7,8,-2,3,5]` (2×3),
weight `[2,1,-1,3,2,1,1,0,0,-2,1,0]`, bias `[-5,-1]`, identity activation
give output `[1, 7]`. -/
theorem C1_forward_correct_witness :
    Dense.forward_propagate exLayer exInput true 4 = .ok ⟨exShapeOut, [1, 7]⟩ := by
  have h := C1_forward_correct exLayer exInput true 4 (by omega) rfl (by decide)
    (by decide) (by decide) (by decide)
  rw [h]
  refine congrArg Except.ok ?_
  norm_num [exLayer, exInput, exShapeOut, exShapeIn, exW, exB, Shape.size,
    Activation.no, Finset.sum_range_succ, List.range_succ]

/-- C2: for every delta of the output shape and `a_prev` of the input shape,
`backpropagate_delta` returns `Ok` with a tensor of the input shape whose
element at every input index `k` is
`(Σ_j weight[j*input_size + k] * delta[j]) * prev_activation_derivative(a_prev[k])`. -/
theorem C2_backprop_correct (l : Dense) (delta a_lst : Tensor)
    (sigma_lst : Activation) (threads : ℕ) (hth : 1 ≤ threads)
    (hshd : delta.shape = l.output_shape)
    (hsha : a_lst.shape = l.input_shape)
    (hdlen : delta.flattened.length = l.output_shape.size)
    (halen : a_lst.flattened.length = l.input_shape.size)
    (hil : 0 < l.input_shape.size)
    (hol : 0 < l.output_shape.size)
    (hwt : l.weight.length = l.input_shape.size * l.output_shape.size) :
    l.backpropagate_delta delta a_lst sigma_lst threads = .ok ⟨l.input_shape,
      (List.range l.input_shape.size).map (fun k =>
        (∑ j ∈ Finset.range l.output_shape.size,
          l.weight.getD (j * l.input_shape.size + k) 0 * delta.flattened.getD j 0) *
          sigma_lst.diff (a_lst.flattened.getD k 0))⟩ :=
  backpropagate_delta_eq l delta a_lst sigma_lst threads hshd hsha hdlen halen hil hol hwt

/-- C2 witness: the literal case of spec §8 — the same layer,
`a_prev = [1,7,8,-2,3,5]`, `delta = [1,7]`, ReLU derivative give
`prev_delta = [9,1,-1,0,9,1]`. -/
theorem C2_backprop_correct_witness :
    Dense.backpropagate_delta exLayer exDelta exInput Activation.relu 4 =
      .ok ⟨exShapeIn, [9, 1, -1, 0, 9, 1]⟩ := by
  have h := C2_backprop_correct exLayer exDelta exInput Activation.relu 4 (by omega)
    rfl rfl (by decide) (by decide) (by decide) (by decide) (by decide)
  rw [h]
  refine congrArg Except.ok ?_
  norm_num [exLayer, exInput, exDelta, exShapeOut, exShapeIn, exW, exB, Shape.size,
    Activation.relu, Finset.sum_range_succ, List.range_succ]

/-- C3 (amended): `descend(rate, delta, a_prev)` returns `Ok(())` and updates
the layer so that `weight[j,k]` becomes
`weight[j,k] - rate * delta[j] * a_prev[k]` and `bias[j]` becomes
`bias[j] - rate * delta[j]`. (The claim's literal list put `-2.1` at weight
index 10; the program computes `1 - 0.1*7*3 = -1.1` there, as the repo's own
`test_dense_descend` expects via `1.-2.1`, so the amended literal reads
`-1.1`.) -/
theorem C3_descend_correct (l : Dense) (rate : ℚ) (delta a_lst : Tensor)
    (threads : ℕ) (hth : 1 ≤ threads)
    (hshd : delta.shape = l.output_shape)
    (hsha : a_lst.shape = l.input_shape)
    (hdlen : delta.flattened.length = l.output_shape.size)
    (halen : a_lst.flattened.length = l.input_shape.size)
    (hil : 0 < l.input_shape.size)
    (hwt : l.weight.length = l.input_shape.size * l.output_shape.size)
    (hb : l.bias.length = l.output_shape.size) :
    l.descend rate delta a_lst threads = (.ok (),
      { l with
        weight := ((List.range l.output_shape.size).map (fun j =>
          (List.range l.input_shape.size).map (fun k =>
            l.weight.getD (j * l.input_shape.size + k) 0 -
              rate * delta.flattened.getD j 0 * a_lst.flattened.getD k 0))).flatten
        bias := (List.range l.output_shape.size).map (fun j =>
          l.bias.getD j 0 - rate * delta.flattened.getD j 0) }) :=
  descend_eq l rate delta a_lst threads hshd hsha hdlen halen hil hwt hb

/-- C3 witness (amended literal): with rate `1/10`, `delta = [1,7]`,
`a_prev = [1,7,8,-2,3,5]`, the weights become exactly
`[1.9, 0.3, -1.8, 3.2, 1.7, 0.5, 0.3, -4.9, -5.6, -0.6, -1.1, -3.5]` and the
bias becomes exactly `[-5.1, -1.7]` (so in particular within 1e-8). -/
theorem C3_descend_correct_witness :
    (Dense.descend exLayer (1/10 : ℚ) exDelta exInput 4).1 = .ok () ∧
    (Dense.descend exLayer (1/10 : ℚ) exDelta exInput 4).2.weight =
      [19/10, 3/10, -9/5, 16/5, 17/10, 1/2, 3/10, -49/10, -28/5, -3/5, -11/10, -7/2] ∧
    (Dense.descend exLayer (1/10 : ℚ) exDelta exInput 4).2.bias = [-51/10, -17/10] := by
  have h := C3_descend_correct exLayer (1/10) exDelta exInput 4 (by omega) rfl rfl
    (by decide) (by decide) (by decide) (by decide) (by decide)
  rw [h]
  refine ⟨rfl, ?_, ?_⟩ <;>
    norm_num [exLayer, exInput, exDelta, exShapeOut, exShapeIn, exW, exB, Shape.size,
      Activation.no, List.range_succ]

/-- C3 counterexample: the claim's literal list says weight index 10 (row 1,
column 4) becomes `-2.1` within 1e-8; the program makes it
`1 - 0.1*7*3 = -1.1`, which misses the claimed value by a full `1`, far
outside the 1e-8 tolerance. -/
theorem C3_descend_counterexample :
    (Dense.descend exLayer (1/10 : ℚ) exDelta exInput 4).2.weight.getD 10 0 = -11/10 ∧
    ¬ |(-11/10 : ℚ) - (-21/10)| < 1/100000000 := by
  constructor
  · rw [descend_eq exLayer (1/10) exDelta exInput 4 rfl rfl (by decide) (by decide)
      (by decide) (by decide) (by decide)]
    norm_num [exLayer, exInput, exDelta, exShapeOut, exShapeIn, exW, exB, Shape.size,
      List.range_succ]
  · norm_num

/-- C4: each operation returns `ShapeMismatchError` exactly when some argument
tensor's shape differs from the shape the layer expects for that role, and in
the error case `descend` leaves the layer completely unchanged (no partial
weight or bias update). -/
theorem C4_shape_error_iff :
    ∀ (l : Dense) (t delta a_lst : Tensor) (act : Bool) (sigma_lst : Activation)
      (rate : ℚ) (threads : ℕ),
      (l.forward_propagate t act threads = .error ⟨⟩ ↔ t.shape ≠ l.input_shape) ∧
      (l.activate t = .error ⟨⟩ ↔ t.shape ≠ l.output_shape) ∧
      (l.backpropagate_delta delta a_lst sigma_lst threads = .error ⟨⟩ ↔
        (delta.shape ≠ l.output_shape ∨ a_lst.shape ≠ l.input_shape)) ∧
      ((l.descend rate delta a_lst threads).1 = .error ⟨⟩ ↔
        (delta.shape ≠ l.output_shape ∨ a_lst.shape ≠ l.input_shape)) ∧
      ((delta.shape ≠ l.output_shape ∨ a_lst.shape ≠ l.input_shape) →
        (l.descend rate delta a_lst threads).2 = l) := by
  intro l t delta a_lst act sigma_lst rate threads
  refine ⟨⟨fun h => ?_, fun h => forward_propagate_mismatch l t act threads h⟩,
    ⟨fun h => ?_, fun h => activate_mismatch l t h⟩,
    ⟨fun h => ?_, fun h => backpropagate_delta_mismatch l delta a_lst sigma_lst threads h⟩,
    ⟨fun h => ?_, fun h => by rw [descend_mismatch l rate delta a_lst threads h]⟩,
    fun h => by rw [descend_mismatch l rate delta a_lst threads h]⟩
  · by_contra hc
    rw [Dense.forward_propagate, if_neg (by simpa using hc)] at h
    simp at h
  · by_contra hc
    rw [Dense.activate, if_neg (by simpa using hc)] at h
    simp at h
  · by_contra hc
    rw [Dense.backpropagate_delta, if_neg (by simpa using hc)] at h
    simp at h
  · by_contra hc
    rw [Dense.descend, if_neg (by simpa using hc)] at h
    simp at h

/-- C4 witness: an input of the wrong shape makes `forward_propagate` fail
with `ShapeMismatchError`, and `descend` with a wrongly shaped delta leaves
the layer unchanged. -/
theorem C4_shape_error_iff_witness :
    Dense.forward_propagate exLayer exDelta true 4 = .error ⟨⟩ ∧
    (Dense.descend exLayer 1 exInput exDelta 4).2 = exLayer := by
  have h := C4_shape_error_iff exLayer exDelta exInput exInput true Activation.no 1 4
  exact ⟨h.1.mpr (by decide), (C4_shape_error_iff exLayer exDelta exInput exDelta true
    Activation.no 1 4).2.2.2.2 (by decide)⟩

/-- C5: `forward_propagate` and `descend` produce exactly the same result
for every worker count `w ≥ 1` as for a single worker: every output index is
handled by one worker and the dot-product terms accumulate in fixed ascending
input-index order, so the chunked results coincide. -/
theorem C5_worker_invariance (l : Dense) (input delta a_lst : Tensor)
    (act : Bool) (rate : ℚ) (threads : ℕ) (hth : 1 ≤ threads)
    (hsh : input.shape = l.input_shape)
    (hlen : input.flattened.length = l.input_shape.size)
    (hshd : delta.shape = l.output_shape)
    (hsha : a_lst.shape = l.input_shape)
    (hdlen : delta.flattened.length = l.output_shape.size)
    (halen : a_lst.flattened.length = l.input_shape.size)
    (hil : 0 < l.input_shape.size)
    (hwt : l.weight.length = l.input_shape.size * l.output_shape.size)
    (hb : l.bias.length = l.output_shape.size) :
    l.forward_propagate input act threads = l.forward_propagate input act 1 ∧
    l.descend rate delta a_lst threads = l.descend rate delta a_lst 1 := by
  constructor
  · rw [forward_propagate_eq l input act threads hsh hlen hil hwt,
      forward_propagate_eq l input act 1 hsh hlen hil hwt]
  · rw [descend_eq l rate delta a_lst threads hshd hsha hdlen halen hil hwt hb,
      descend_eq l rate delta a_lst 1 hshd hsha hdlen halen hil hwt hb]

/-- C5 witness: at the literal test layer, 4 workers and 1 worker give
identical forward and descend results. -/
theorem C5_worker_invariance_witness :
    Dense.forward_propagate exLayer exInput true 4 =
      Dense.forward_propagate exLayer exInput true 1 ∧
    Dense.descend exLayer (1/10 : ℚ) exDelta exInput 4 =
      Dense.descend exLayer (1/10 : ℚ) exDelta exInput 1 :=
  C5_worker_invariance exLayer exInput exDelta exInput true (1/10) 4 (by omega)
    rfl (by decide) rfl rfl (by decide) (by decide) (by decide) (by decide) (by decide)

/-- C6 counterexample: the claim says chunk size `⌈output_size/worker_count⌉`
with one chunk per worker; with `output_size = 2` and `worker_count = 2` the
code's chunk size is `2/2 + 1 = 2 ≠ ⌈2/2⌉ = 1` and the partition has a single
chunk, not one per worker. -/
theorem C6_chunking_counterexample :
    multsPerChunk 2 2 ≠ (2 + 2 - 1) / 2 ∧
    (chunks (multsPerChunk 2 2) (List.replicate 2 (0 : ℚ))).length ≠ 2 := by
  constructor
  · decide
  · have h1 : (List.replicate 2 (0 : ℚ)).drop (multsPerChunk 2 2) = [] := by decide
    rw [chunks_cons (multsPerChunk 2 2) (by decide) _ (by decide), h1, chunks_nil]
    decide

/-- C6 amended: `forward_propagate` partitions `[0, output_size)` into
contiguous chunks of size `⌊output_size / worker_count⌋ + 1` (only the last
chunk may be shorter), producing at most `worker_count` chunks — possibly
fewer, so not always one per worker — with the number of chunks equal to
`⌈output_size / chunk_size⌉`, and the weight buffer partitioned in lockstep
into chunks of exactly `chunk_size * input_size` elements (last possibly
shorter), with equally many weight chunks as output chunks. -/
theorem C6_chunking_amended (olen ilen threads : ℕ) (weight : List ℚ)
    (hth : 1 ≤ threads) (hil : 0 < ilen) (hwt : weight.length = olen * ilen) :
    multsPerChunk olen threads = olen / threads + 1 ∧
    (chunks (multsPerChunk olen threads) (List.replicate olen (0 : ℚ))).flatten =
      List.replicate olen 0 ∧
    (∀ c ∈ (chunks (multsPerChunk olen threads) (List.replicate olen (0 : ℚ))).dropLast,
      c.length = multsPerChunk olen threads) ∧
    (∀ c ∈ chunks (multsPerChunk olen threads) (List.replicate olen (0 : ℚ)),
      c.length ≤ multsPerChunk olen threads) ∧
    (chunks (multsPerChunk olen threads) (List.replicate olen (0 : ℚ))).length =
      (olen + multsPerChunk olen threads - 1) / multsPerChunk olen threads ∧
    (chunks (multsPerChunk olen threads) (List.replicate olen (0 : ℚ))).length ≤
      threads ∧
    (chunks (multsPerChunk olen threads * ilen) weight).length =
      (chunks (multsPerChunk olen threads) (List.replicate olen (0 : ℚ))).length ∧
    (∀ c ∈ (chunks (multsPerChunk olen threads * ilen) weight).dropLast,
      c.length = multsPerChunk olen threads * ilen) := by
  have hn : 0 < multsPerChunk olen threads := Nat.succ_pos _
  refine ⟨rfl, chunks_flatten _ hn _,
    fun c hc => chunks_dropLast_length _ hn _ _ le_rfl c hc,
    fun c hc => chunks_mem_length_le _ hn _ _ le_rfl c hc,
    by rw [chunks_length' _ hn, List.length_replicate], ?_, ?_,
    fun c hc => chunks_dropLast_length _ (Nat.mul_pos hn hil) _ _ le_rfl c hc⟩
  · rw [chunks_length' _ hn, List.length_replicate]
    simp only [multsPerChunk]
    obtain ⟨q, r, hqr, hrlt⟩ : ∃ q r, olen = threads * q + r ∧ r < threads :=
      ⟨olen / threads, olen % threads, (Nat.div_add_mod olen threads).symm,
        Nat.mod_lt _ (by omega)⟩
    have hdiv : olen / threads = q := by
      rw [hqr, Nat.mul_add_div (by omega), Nat.div_eq_of_lt hrlt, Nat.add_zero]
    rw [hdiv]
    have hlt2 : olen + (q + 1) - 1 < (threads + 1) * (q + 1) := by
      have hexp : (threads + 1) * (q + 1) = threads * q + threads + q + 1 := by ring
      omega
    exact Nat.lt_succ_iff.mp ((Nat.div_lt_iff_lt_mul (by omega)).mpr hlt2)
  · have hW' : weight.length = (List.replicate olen (0 : ℚ)).length * ilen := by
      rw [List.length_replicate, hwt]
    exact chunks_count_mul _ ilen hn hil _ _ hW'

/-- C6 amended witness: with `output_size = 2`, `input_size = 3` and two
workers the output partition rebuilds the output buffer and has at most two
chunks. -/
theorem C6_chunking_amended_witness :
    (chunks (multsPerChunk 2 2) (List.replicate 2 (0 : ℚ))).flatten =
      List.replicate 2 0 ∧
    (chunks (multsPerChunk 2 2) (List.replicate 2 (0 : ℚ))).length ≤ 2 :=
  ⟨(C6_chunking_amended 2 3 2 (List.replicate 6 0) (by omega) (by omega)
      (by decide)).2.1,
   (C6_chunking_amended 2 3 2 (List.replicate 6 0) (by omega) (by omega)
      (by decide)).2.2.2.2.2.1⟩

/-- C7: for every tensor of the layer's output shape, `activate` returns
`Ok` with a new tensor of the same shape holding the activation of every
element, and the result depends only on the argument's values, the output
shape and the activation — not on the layer's weight or bias. -/
theorem C7_activate_correct (l : Dense) (t : Tensor)
    (hsh : t.shape = l.output_shape)
    (hlen : t.flattened.length = t.shape.size) :
    l.activate t = .ok ⟨l.output_shape, t.flattened.map l.activation.call⟩ ∧
    ∀ l' : Dense, l'.output_shape = l.output_shape → l'.activation = l.activation →
      l'.activate t = l.activate t := by
  refine ⟨activate_eq l t hsh hlen, fun l' ho hact => ?_⟩
  rw [activate_eq l t hsh hlen, activate_eq l' t (hsh.trans ho.symm) hlen, ho, hact]

/-- C7 witness: applying the layer's activation elementwise to
`[-3,-2,-1,0,1,2,3,4,5,6,7,8]` (here the spec's ReLU variant, the activation
module being external) gives the elementwise image, independent of the
all-zero weight and bias. -/
theorem C7_activate_correct_witness :
    Dense.activate exActLayer exActT =
      .ok ⟨exActOut, [0, 0, 0, 0, 1, 2, 3, 4, 5, 6, 7, 8]⟩ := by
  have h := (C7_activate_correct exActLayer exActT rfl (by decide)).1
  rw [h]
  refine congrArg Except.ok ?_
  norm_num [exActLayer, exActT, exActOut, Shape.size, Activation.relu]

/-- C8: the layer invariant `weight.length = input_size * output_size` and
`bias.length = output_size` is established by `Dense::new` and preserved by
`descend` (the only operation that touches the buffers; the other three
take the layer immutably and return only tensors) on every call — whether it
returns `Ok` or the shape-mismatch error. The argument tensors carry only
their own construction invariant `flattened.length = shape.size` (spec §3),
which every constructible tensor satisfies, so wrongly shaped error calls
are covered. -/
theorem C8_invariant :
    (∀ (iS oS : Shape) (act : Activation),
      (Dense.new iS oS act).weight.length = iS.size * oS.size ∧
      (Dense.new iS oS act).bias.length = oS.size) ∧
    (∀ (l : Dense) (rate : ℚ) (delta a_lst : Tensor) (threads : ℕ),
      l.weight.length = l.input_shape.size * l.output_shape.size →
      l.bias.length = l.output_shape.size →
      delta.flattened.length = delta.shape.size →
      a_lst.flattened.length = a_lst.shape.size →
      0 < l.input_shape.size →
      (l.descend rate delta a_lst threads).2.weight.length =
        l.input_shape.size * l.output_shape.size ∧
      (l.descend rate delta a_lst threads).2.bias.length = l.output_shape.size) := by
  constructor
  · intro iS oS act
    exact ⟨by simp [Dense.new], by simp [Dense.new]⟩
  · intro l rate delta a_lst threads hwt hb hdval haval hil
    by_cases hc : delta.shape = l.output_shape ∧ a_lst.shape = l.input_shape
    · have hdlen : delta.flattened.length = l.output_shape.size := by
        rw [hdval, hc.1]
      have halen : a_lst.flattened.length = l.input_shape.size := by
        rw [haval, hc.2]
      rw [descend_eq l rate delta a_lst threads hc.1 hc.2 hdlen halen hil hwt hb]
      dsimp only
      constructor
      · rw [flatten_map_range_length]
        ring
      · simp
    · have hor : delta.shape ≠ l.output_shape ∨ a_lst.shape ≠ l.input_shape := by
        tauto
      rw [descend_mismatch l rate delta a_lst threads hor]
      exact ⟨hwt, hb⟩

/-- C8 witness: the literal descend call keeps 12 weights and 2 biases, and
so does an error call whose delta has the wrong shape (the layer is left
unchanged there). -/
theorem C8_invariant_witness :
    ((Dense.descend exLayer (1/10 : ℚ) exDelta exInput 4).2.weight.length = 12 ∧
      (Dense.descend exLayer (1/10 : ℚ) exDelta exInput 4).2.bias.length = 2) ∧
    ((Dense.descend exLayer 1 exInput exDelta 4).2.weight.length = 12 ∧
      (Dense.descend exLayer 1 exInput exDelta 4).2.bias.length = 2) := by
  constructor
  · have h := C8_invariant.2 exLayer (1/10) exDelta exInput 4 (by decide) (by decide)
      (by decide) (by decide) (by decide)
    exact ⟨by rw [h.1]; decide, by rw [h.2]; decide⟩
  · have h := C8_invariant.2 exLayer 1 exInput exDelta 4 (by decide) (by decide)
      (by decide) (by decide) (by decide)
    exact ⟨by rw [h.1]; decide, by rw [h.2]; decide⟩

/-- C9: `Dense::new(i_shape, o_shape, act)` copies the two shapes, installs
the given activation, and allocates a weight buffer of
`i_shape.size * o_shape.size` ones and a bias buffer of `o_shape.size`
ones. -/
theorem C9_new_correct (iS oS : Shape) (act : Activation) :
    (Dense.new iS oS act).input_shape = iS ∧
    (Dense.new iS oS act).output_shape = oS ∧
    (Dense.new iS oS act).weight = List.replicate (iS.size * oS.size) 1 ∧
    (Dense.new iS oS act).bias = List.replicate oS.size 1 ∧
    (Dense.new iS oS act).activation = act ∧
    (∀ p, p < iS.size * oS.size → (Dense.new iS oS act).weight.getD p 0 = 1) ∧
    (∀ p, p < oS.size → (Dense.new iS oS act).bias.getD p 0 = 1) := by
  refine ⟨rfl, rfl, rfl, rfl, rfl, fun p hp => ?_, fun p hp => ?_⟩
  · show (List.replicate (iS.size * oS.size) (1 : ℚ)).getD p 0 = 1
    rw [List.getD_eq_getElem _ _ (by simpa using hp), List.getElem_replicate]
  · show (List.replicate oS.size (1 : ℚ)).getD p 0 = 1
    rw [List.getD_eq_getElem _ _ (by simpa using hp), List.getElem_replicate]

/-- C9 witness: the 2×3 → 2 layer starts with every weight and bias entry
equal to one. -/
theorem C9_new_correct_witness :
    (Dense.new exShapeIn exShapeOut Activation.no).weight.getD 5 0 = 1 ∧
    (Dense.new exShapeIn exShapeOut Activation.no).bias.getD 1 0 = 1 :=
  ⟨(C9_new_correct exShapeIn exShapeOut Activation.no).2.2.2.2.2.1 5 (by decide),
   (C9_new_correct exShapeIn exShapeOut Activation.no).2.2.2.2.2.2 1 (by decide)⟩

/-- C10: applying the standalone `activate` to the result of
`forward_propagate(input, false)` yields exactly
`forward_propagate(input, true)`: deferred activation equals in-place
activation. -/
theorem C10_activate_compose (l : Dense) (input : Tensor) (threads : ℕ)
    (hth : 1 ≤ threads)
    (hsh : input.shape = l.input_shape)
    (hlen : input.flattened.length = l.input_shape.size)
    (hil : 0 < l.input_shape.size)
    (hwt : l.weight.length = l.input_shape.size * l.output_shape.size) :
    ∀ t : Tensor, l.forward_propagate input false threads = .ok t →
      l.activate t = l.forward_propagate input true threads := by
  intro t ht
  rw [forward_propagate_eq l input false threads hsh hlen hil hwt] at ht
  injection ht with h
  subst h
  rw [activate_eq l _ rfl (by simp),
    forward_propagate_eq l input true threads hsh hlen hil hwt]
  refine congrArg (fun v => (Except.ok (Tensor.mk l.output_shape v) : Result Tensor)) ?_
  rw [List.map_map]
  apply List.map_congr_left
  intro j _
  simp [Function.comp]

/-- C10 witness: at the literal test layer, activating the unactivated
forward result `[1,7]` equals the activated forward pass. -/
theorem C10_activate_compose_witness :
    Dense.activate exLayer ⟨exShapeOut, [1, 7]⟩ =
      Dense.forward_propagate exLayer exInput true 4 := by
  apply C10_activate_compose exLayer exInput 4 (by omega) rfl (by decide) (by decide)
    (by decide)
  rw [forward_propagate_eq exLayer exInput false 4 rfl (by decide) (by decide)
    (by decide)]
  refine congrArg Except.ok ?_
  norm_num [exLayer, exInput, exShapeOut, exShapeIn, exW, exB, Shape.size,
    Activation.no, Finset.sum_range_succ, List.range_succ]

end EasyNN
